import Mathlib

/-!
Verification of the xgi non-uniform hypergraph core: a shallow embedding of
`nuHypergraph.uniformize` (src/xgi/core/nuhypergraph.py) and of the matrix
constructions (src/xgi/linalg/matrix.py), with theorems settling the spec's
claims about them.

Conventions of the embedding:
* Python ints are `Int`/`Nat`, Python floats appearing as arithmetic results
  are `Rat` (the float arithmetic in the source stays well within exactness).
* Python dicts keyed by node tuples are association lists
  `List (List Int × Rat)` in insertion order, as Python dicts preserve it.
* Python sets of nodes are `List Int` grown only through a membership-guarded
  add, mirroring `set.add`.
* Raising exceptions is `Except`: `PErr.assertErr` for `AssertionError`
  (the `assert isinstance(m, int)`), `PErr.valueErr` for `ValueError`
  (`max` of an empty list, `itertools.combinations` with negative arity).
-/

def exceptDecEq {ε α : Type} [DecidableEq ε] [DecidableEq α] :
    (a b : Except ε α) → Decidable (a = b)
  | .error e, .error e' =>
      if h : e = e' then isTrue (by rw [h])
      else isFalse (by intro hh; injection hh; contradiction)
  | .error _, .ok _ => isFalse (by intro h; cases h)
  | .ok _, .error _ => isFalse (by intro h; cases h)
  | .ok a, .ok b =>
      if h : a = b then isTrue (by rw [h])
      else isFalse (by intro hh; injection hh; contradiction)

instance {ε α : Type} [DecidableEq ε] [DecidableEq α] : DecidableEq (Except ε α) :=
  exceptDecEq

/-- Distinguishes the error kinds `uniformize` can raise. -/
inductive PErr where
  | assertErr : PErr
  | valueErr : PErr
deriving DecidableEq, Repr

/-- A Python numeric value passed as the `m` argument: the code branches on
truthiness (`if not m:`) and on `isinstance(m, int)`. -/
inductive PyNum where
  | int : Int → PyNum
  | float : Rat → PyNum
deriving DecidableEq, Repr

/-- Python truthiness of a number: zero is falsy. -/
def PyNum.truthy : PyNum → Bool
  | .int n => n != 0
  | .float q => q != 0

/-- `isinstance(m, int)`. -/
def PyNum.isInt : PyNum → Bool
  | .int _ => true
  | .float _ => false

/-- The state of a `nuHypergraph` that `uniformize` reads and mutates:
`_num_nodes`, `_nodes` (a set, kept as a duplicate-free list) and `_ds`
(the degree sequence, a dict from member tuple to multiplicity). -/
structure NuH where
  num_nodes : Nat
  nodes : List Int
  ds : List (List Int × Rat)
deriving DecidableEq, Repr

/-- `max([len(ind) for ind in list(self._ds.keys())])` (the list must be
non-empty in Python; on the empty list this returns `0`, callers guard). -/
def maxKeyLen (ds : List (List Int × Rat)) : Nat :=
  (ds.map (fun p => p.1.length)).foldr max 0

/-- The dict update `new_ds[k] += v` / `new_ds[k] = v`: accumulate on an
existing key, else append in insertion order. -/
def dsAdd (d : List (List Int × Rat)) (k : List Int) (v : Rat) :
    List (List Int × Rat) :=
  if d.any (fun p => p.1 = k) then
    d.map (fun p => if p.1 = k then (p.1, p.2 + v) else p)
  else
    d ++ [(k, v)]

/-- `itertools.combinations(edge, m)`: all `m`-subsets in positional order,
each keeping the original member order. -/
def combinations : Nat → List Int → List (List Int)
  | 0, _ => [[]]
  | _ + 1, [] => []
  | n + 1, x :: xs => (combinations n xs).map (fun c => x :: c) ++ combinations (n + 1) xs

/-- One fuelled unrolling of the `while len(edge) < m:` body: append the
padding node `p`, adding it to the node set and bumping the node count the
first time it is not yet present. -/
def padGo (p : Int) : Nat → List Int → List Int → Nat → List Int × List Int × Nat
  | 0, edge, nodes, nn => (edge, nodes, nn)
  | fuel + 1, edge, nodes, nn =>
    if p ∈ nodes then padGo p fuel (edge ++ [p]) nodes nn
    else padGo p fuel (edge ++ [p]) (nodes ++ [p]) (nn + 1)

/-- The `while len(edge) < m:` padding loop of the pad branch.  Each iteration
appends exactly one element, so the loop runs exactly `m - len(edge)` times;
that count is the structural fuel of `padGo`. Returns the padded edge together
with the updated node set and node count. -/
def padLoop (m : Nat) (p : Int) (edge : List Int) (nodes : List Int)
    (nn : Nat) : List Int × List Int × Nat :=
  padGo p (m - edge.length) edge nodes nn

/-- The `for hyperedge in self._ds:` loop of `uniformize`, threading the
mutable node set, node count and the accumulating `new_ds`.  `m` is kept as an
`Int` because a supplied Python int may be negative; `N` is the local variable
of the source (its incremented value is only observable through the padding
node id `N - 1`). -/
def uniLoop (m : Int) (N : Nat) :
    List (List Int × Rat) → List Int → Nat → List (List Int × Rat) →
    Except PErr (List Int × Nat × List (List Int × Rat))
  | [], nodes, nn, acc => .ok (nodes, nn, acc)
  | (he, _) :: rest, nodes, nn, acc =>
    let k := he.length
    if (k : Int) ≤ m then
      -- pad branch: `len(edge) <= m`
      let r := padLoop m.toNat ((N : Int) - 1) he nodes nn
      let entry : Rat := (Nat.factorial k : Rat) / (Nat.factorial r.1.length : Rat)
      uniLoop m N rest r.2.1 r.2.2 (dsAdd acc r.1 entry)
    else
      -- split branch: `combinations(edge, m)` raises ValueError for negative m
      if m < 0 then .error .valueErr
      else
        let combs := combinations m.toNat he
        let entry : Rat := 1 / ((Nat.factorial m.toNat : Rat) * (Nat.choose k m.toNat : Rat))
        uniLoop m N rest nodes nn (combs.foldl (fun a c => dsAdd a c entry) acc)

/-- The local `N` of `uniformize` after the conditional increment: bumped when
`len(set(self._ds.keys())) != 1 or m <= max(...)`.  The Python `or`
short-circuits, so with an empty `_ds` (0 distinct keys) the `max` is never
evaluated; `maxKeyLen` is total here, making the unguarded `∨` equivalent. -/
def reservedN (st : NuH) (m : Int) : Nat :=
  if (st.ds.map (fun p => p.1)).dedup.length ≠ 1 ∨ m ≤ (maxKeyLen st.ds : Int) then
    st.num_nodes + 1
  else st.num_nodes

/-- The body of `uniformize` after `m` has been settled to an int. -/
def uniformizeCore (st : NuH) (m : Int) : Except PErr NuH :=
  match uniLoop m (reservedN st m) st.ds st.nodes st.num_nodes [] with
  | .error e => .error e
  | .ok (nodes, nn, newds) => .ok ⟨nn, nodes, newds⟩

/-- `nuHypergraph.uniformize(self, m=None)`.  `if not m:` derives `m` as the
maximum key length (raising `ValueError` from `max([])` when the degree
sequence is empty); a truthy non-int `m` fails `assert isinstance(m, int)`. -/
def uniformize (st : NuH) (m? : Option PyNum) : Except PErr NuH :=
  match m? with
  | none =>
      if st.ds.isEmpty then .error .valueErr
      else uniformizeCore st (maxKeyLen st.ds : Int)
  | some v =>
      if !v.truthy then
        if st.ds.isEmpty then .error .valueErr
        else uniformizeCore st (maxKeyLen st.ds : Int)
      else
        match v with
        | .int n => uniformizeCore st n
        | .float _ => .error .assertErr

/-- The effective arity of the output edges: the supplied `m` when it is an
int, otherwise the maximum observed edge size. -/
def targetArity (st : NuH) (m? : Option PyNum) : Nat :=
  match m? with
  | some (.int n) => n.toNat
  | _ => maxKeyLen st.ds

theorem padGo_fst_length (p : Int) (fuel : Nat) :
    ∀ (edge nodes : List Int) (nn : Nat),
      ((padGo p fuel edge nodes nn).1).length = edge.length + fuel := by
  induction fuel with
  | zero => intro edge nodes nn; simp [padGo]
  | succ f ih =>
      intro edge nodes nn
      simp only [padGo]
      split <;> rw [ih] <;> simp [List.length_append] <;> omega

theorem padLoop_fst_length (m : Nat) (p : Int) (edge nodes : List Int) (nn : Nat)
    (h : edge.length ≤ m) : ((padLoop m p edge nodes nn).1).length = m := by
  unfold padLoop; rw [padGo_fst_length]; omega

theorem padLoop_of_length_ge (m : Nat) (p : Int) (edge nodes : List Int) (nn : Nat)
    (h : m ≤ edge.length) : padLoop m p edge nodes nn = (edge, nodes, nn) := by
  unfold padLoop
  have h0 : m - edge.length = 0 := by omega
  rw [h0]
  rfl

theorem combinations_length_eq :
    ∀ (l : List Int) (n : Nat) (c : List Int), c ∈ combinations n l → c.length = n := by
  intro l
  induction l with
  | nil =>
      intro n c hc
      cases n with
      | zero => simp [combinations] at hc; simp [hc]
      | succ k => simp [combinations] at hc
  | cons x xs ih =>
      intro n c hc
      cases n with
      | zero => simp [combinations] at hc; simp [hc]
      | succ k =>
          simp only [combinations, List.mem_append, List.mem_map] at hc
          rcases hc with ⟨c', hc', rfl⟩ | hc
          · simp [ih k c' hc']
          · exact ih (k + 1) c hc

theorem dsAdd_keys {d : List (List Int × Rat)} {k k' : List Int} {v : Rat}
    (h : k' ∈ (dsAdd d k v).map (fun p => p.1)) :
    k' ∈ d.map (fun p => p.1) ∨ k' = k := by
  unfold dsAdd at h
  split at h
  · left
    simp only [List.map_map, List.mem_map] at h ⊢
    obtain ⟨p, hp, hk⟩ := h
    refine ⟨p, hp, ?_⟩
    simp only [Function.comp] at hk
    split at hk <;> simpa using hk
  · simp only [List.map_append, List.mem_append, List.map_cons, List.map_nil,
      List.mem_cons, List.not_mem_nil, or_false] at h
    exact h

theorem foldl_dsAdd_keys (P : List Int → Prop) (v : Rat) :
    ∀ (cs : List (List Int)) (acc : List (List Int × Rat)),
    (∀ k ∈ acc.map (fun p => p.1), P k) → (∀ c ∈ cs, P c) →
    ∀ k ∈ ((cs.foldl (fun a c => dsAdd a c v) acc).map (fun p => p.1)), P k := by
  intro cs
  induction cs with
  | nil => intro acc hacc _ k hk; exact hacc k hk
  | cons c cs ih =>
      intro acc hacc hcs k hk
      refine ih (dsAdd acc c v) ?_ (fun c' hc' => hcs c' (List.mem_cons_of_mem _ hc')) k hk
      intro k' hk'
      rcases dsAdd_keys hk' with h | heq
      · exact hacc k' h
      · rw [heq]; exact hcs c (List.mem_cons_self _ _)

theorem maxKeyLen_const {ds : List (List Int × Rat)} {m : Nat}
    (hne : ds ≠ []) (hall : ∀ p ∈ ds, p.1.length = m) : maxKeyLen ds = m := by
  induction ds with
  | nil => exact absurd rfl hne
  | cons p tl ih =>
      have hp : p.1.length = m := hall p (List.mem_cons_self _ _)
      cases tl with
      | nil => simp [maxKeyLen, hp]
      | cons q tl' =>
          have htl : maxKeyLen (q :: tl') = m :=
            ih (by simp) (fun r hr => hall r (List.mem_cons_of_mem _ hr))
          simp only [maxKeyLen, List.map_cons, List.foldr_cons] at htl ⊢
          rw [htl, hp, Nat.max_self]

theorem uniLoop_ne_assertErr (m : Int) (N : Nat) :
    ∀ (ds : List (List Int × Rat)) (nodes : List Int) (nn : Nat)
      (acc : List (List Int × Rat)),
      uniLoop m N ds nodes nn acc ≠ .error .assertErr := by
  intro ds
  induction ds with
  | nil => intro nodes nn acc; simp [uniLoop]
  | cons hd tl ih =>
      intro nodes nn acc
      obtain ⟨he, w⟩ := hd
      simp only [uniLoop]
      split
      · exact ih _ _ _
      · split
        · simp
        · exact ih _ _ _

theorem uniformizeCore_ne_assertErr (st : NuH) (m : Int) :
    uniformizeCore st m ≠ .error .assertErr := by
  unfold uniformizeCore
  split
  · rename_i e heq
    intro hc
    injection hc with h1
    subst h1
    exact uniLoop_ne_assertErr _ _ _ _ _ _ heq
  · simp

theorem uniLoop_ok_of_nonneg (m : Int) (hm : 0 ≤ m) (N : Nat) :
    ∀ (ds : List (List Int × Rat)) (nodes : List Int) (nn : Nat)
      (acc : List (List Int × Rat)),
      (∀ k ∈ acc.map (fun p => p.1), k.length = m.toNat) →
      ∃ nodes' nn' out, uniLoop m N ds nodes nn acc = .ok (nodes', nn', out) ∧
        ∀ k ∈ out.map (fun p => p.1), k.length = m.toNat := by
  intro ds
  induction ds with
  | nil =>
      intro nodes nn acc hacc
      exact ⟨nodes, nn, acc, rfl, hacc⟩
  | cons hd tl ih =>
      intro nodes nn acc hacc
      obtain ⟨he, w⟩ := hd
      simp only [uniLoop]
      split
      · -- pad branch: the padded key has length exactly m
        rename_i hle
        refine ih _ _ _ ?_
        intro k hk
        rcases dsAdd_keys hk with h | rfl
        · exact hacc k h
        · exact padLoop_fst_length _ _ _ _ _ (Int.le_toNat hm |>.mpr hle)
      · rw [if_neg (by omega)]
        refine ih _ _ _ ?_
        exact foldl_dsAdd_keys _ _ _ _ hacc
          (fun c hc => combinations_length_eq _ _ _ hc)

/-- `C1`: on the hypergraph with nodes `{0,1}`, the single edge `(0,1)` and
target `m = 3`, the claim (and the spec) say one synthetic padding node is
reserved (`N` incremented because `m` exceeds the maximum edge size `2`), the
result is `{(0,1,2): 1/3}`, and the node set and count grow by one.  The code
tests `m <= max(...)` (not `m > max(...)`): with `3 <= 2` false and a single
distinct key, `N` is never incremented, so the padding target `N-1 = 1` is the
already-existing node `1`.  The result is the degenerate key `(0,1,1)` and the
node set and node count are unchanged. -/
theorem uniformize_m3_pads_with_existing_node :
    uniformize ⟨2, [0, 1], [([0, 1], 1)]⟩ (some (.int 3)) =
      .ok ⟨2, [0, 1], [([0, 1, 1], 1/3)]⟩ := by
  norm_num [uniformize, uniformizeCore, reservedN, uniLoop, padLoop, padGo, dsAdd,
    combinations, maxKeyLen, PyNum.truthy, Nat.factorial]

/-- `C3` counterexample: splitting the single size-4 edge `(0,1,2,3)` with
`m = 2` yields total mass `6 · 1/12 = 1/2`, not the claimed `4/12 = 1/3`. -/
theorem uniformize_split_mass_ne_one_third :
    (uniformize ⟨4, [0, 1, 2, 3], [([0, 1, 2, 3], 1)]⟩ (some (.int 2))).map
        (fun st => (st.ds.map (fun p => p.2)).sum) ≠ .ok (1/3) := by
  norm_num [uniformize, uniformizeCore, reservedN, uniLoop, padLoop, padGo, dsAdd,
    combinations, maxKeyLen, PyNum.truthy, Nat.factorial, Nat.choose,
    Except.map]

/-- `C3` amended: splitting the single size-4 edge `(0,1,2,3)` with `m = 2`
produces the `C(4,2) = 6` two-subsets in original member order, each with
weight `1/(2!·6) = 1/12`, and the weights sum to `6/12 = 1/2` total mass. -/
theorem uniformize_split_six_twelfths :
    uniformize ⟨4, [0, 1, 2, 3], [([0, 1, 2, 3], 1)]⟩ (some (.int 2)) =
      .ok ⟨4, [0, 1, 2, 3],
        [([0, 1], 1/12), ([0, 2], 1/12), ([0, 3], 1/12),
         ([1, 2], 1/12), ([1, 3], 1/12), ([2, 3], 1/12)]⟩ ∧
    ([(1:Rat)/12, 1/12, 1/12, 1/12, 1/12, 1/12].sum = 1/2) := by
  constructor
  · norm_num [uniformize, uniformizeCore, reservedN, uniLoop, padLoop, padGo, dsAdd,
      combinations, maxKeyLen, PyNum.truthy, Nat.factorial, Nat.choose]
  · norm_num

/-- `C4` counterexample: `m = 0.0` is supplied and is not an int, yet no
type/assertion error is raised: `if not m:` treats the falsy float as
unspecified and derives `m` from the maximum edge size instead. -/
theorem uniformize_falsy_float_not_rejected :
    (PyNum.float 0).isInt = false ∧
    uniformize ⟨2, [0, 1], [([0, 1], 1)]⟩ (some (.float 0)) =
      .ok ⟨2, [0, 1], [([0, 1], 1)]⟩ := by
  refine ⟨rfl, ?_⟩
  norm_num [uniformize, uniformizeCore, reservedN, uniLoop, padLoop, padGo, dsAdd,
    combinations, maxKeyLen, PyNum.truthy, Nat.factorial]

/-- `C4` amended: `uniformize` fails with the assertion error exactly when `m`
is supplied, truthy (non-zero) and not an int.  A falsy non-integer such as
`0.0` is treated as unspecified (the arity is derived instead), and no other
input produces the assertion error. -/
theorem uniformize_assertion_iff_truthy_nonint (st : NuH) (m? : Option PyNum) :
    uniformize st m? = .error .assertErr ↔
      ∃ v, m? = some v ∧ v.truthy = true ∧ v.isInt = false := by
  cases m? with
  | none =>
      constructor
      · intro h
        simp only [uniformize] at h
        split at h
        · exact absurd h (by simp)
        · exact absurd h (uniformizeCore_ne_assertErr _ _)
      · rintro ⟨v, hv, -, -⟩
        cases hv
  | some v =>
      cases v with
      | int n =>
          constructor
          · intro h
            simp only [uniformize] at h
            split at h
            · split at h
              · exact absurd h (by simp)
              · exact absurd h (uniformizeCore_ne_assertErr _ _)
            · exact absurd h (uniformizeCore_ne_assertErr _ _)
          · rintro ⟨v', hv', ht, hint⟩
            injection hv' with h1
            subst h1
            simp [PyNum.isInt] at hint
      | float q =>
          constructor
          · intro h
            simp only [uniformize] at h
            split at h
            · split at h
              · exact absurd h (by simp)
              · exact absurd h (uniformizeCore_ne_assertErr _ _)
            · rename_i ht
              refine ⟨.float q, rfl, ?_, rfl⟩
              simpa using ht
          · rintro ⟨v', hv', ht, hint⟩
            injection hv' with h1
            subst h1
            simp [uniformize, ht]

/-- `C5`: for a non-empty degree sequence and a valid target arity (`m` a
positive integer, or `m` unspecified in which case the maximum observed edge
size is used), `uniformize` succeeds and every key of the resulting degree
sequence is a tuple of length exactly the target arity: under-sized edges are
padded, over-sized edges are split into `m`-subsets. -/
theorem uniformize_keys_have_target_arity (st : NuH) (m? : Option PyNum)
    (hds : st.ds ≠ [])
    (hm : m? = none ∨ ∃ n : Int, 0 < n ∧ m? = some (.int n)) :
    ∃ st', uniformize st m? = .ok st' ∧
      ∀ k ∈ st'.ds.map (fun p => p.1), k.length = targetArity st m? := by
  have hcore : ∀ (m : Int), 0 ≤ m →
      ∃ st', uniformizeCore st m = .ok st' ∧
        ∀ k ∈ st'.ds.map (fun p => p.1), k.length = m.toNat := by
    intro m hm0
    obtain ⟨nodes', nn', out, hloop, hout⟩ :=
      uniLoop_ok_of_nonneg m hm0 (reservedN st m) st.ds st.nodes st.num_nodes [] (by simp)
    refine ⟨⟨nn', nodes', out⟩, ?_, hout⟩
    unfold uniformizeCore
    rw [hloop]
  rcases hm with rfl | ⟨n, hn, rfl⟩
  · obtain ⟨st', hst', hk⟩ := hcore (maxKeyLen st.ds : Int) (by positivity)
    refine ⟨st', ?_, ?_⟩
    · unfold uniformize
      rw [if_neg (by simpa [List.isEmpty_iff] using hds)]
      exact hst'
    · simpa [targetArity] using hk
  · obtain ⟨st', hst', hk⟩ := hcore n (le_of_lt hn)
    refine ⟨st', ?_, ?_⟩
    · have ht : (PyNum.int n).truthy = true := by
        simp only [PyNum.truthy, bne_iff_ne, ne_eq]
        omega
      simp [uniformize, ht, hst']
    · simpa [targetArity] using hk

/-- Witness for `C5` at the two-edge sequence `{(0,1,2,3): 1, (0,1): 1}` with
`m = 3`: the under-sized edge is padded and the over-sized one split, every
resulting key having length `3`. -/
theorem uniformize_keys_have_target_arity_witness :
    ∃ st', uniformize ⟨4, [0, 1, 2, 3], [([0, 1, 2, 3], 1), ([0, 1], 1)]⟩
        (some (.int 3)) = .ok st' ∧
      ∀ k ∈ st'.ds.map (fun p => p.1),
        k.length = targetArity ⟨4, [0, 1, 2, 3], [([0, 1, 2, 3], 1), ([0, 1], 1)]⟩
          (some (.int 3)) :=
  uniformize_keys_have_target_arity _ _ (by simp) (Or.inr ⟨3, by norm_num, rfl⟩)

theorem uniLoop_uniform (m N : Nat) :
    ∀ (rest acc : List (List Int × Rat)) (nodes : List Int) (nn : Nat),
      (∀ p ∈ rest, p.1.length = m ∧ p.2 = 1) →
      (∀ p ∈ rest, p.1 ∉ acc.map (fun q => q.1)) →
      ((rest.map (fun p => p.1)).Nodup) →
      uniLoop (m : Int) N rest nodes nn acc = .ok (nodes, nn, acc ++ rest) := by
  intro rest
  induction rest with
  | nil => intro acc nodes nn _ _ _; simp [uniLoop]
  | cons hd tl ih =>
      intro acc nodes nn hall hdisj hnd
      obtain ⟨he, w⟩ := hd
      have hlen : he.length = m := (hall _ (List.mem_cons_self _ _)).1
      have hw : w = 1 := (hall _ (List.mem_cons_self _ _)).2
      subst hw
      simp only [uniLoop, hlen]
      rw [if_pos (by omega)]
      rw [padLoop_of_length_ge _ _ _ _ _ (show (Int.toNat (m : Int)) ≤ he.length by omega)]
      show uniLoop (↑m) N tl nodes nn
          (dsAdd acc he ((Nat.factorial m : Rat) / (Nat.factorial he.length : Rat))) =
        Except.ok (nodes, nn, acc ++ (he, 1) :: tl)
      rw [hlen]
      rw [div_self (show ((Nat.factorial m : Rat)) ≠ 0 by positivity)]
      have hadd : dsAdd acc he 1 = acc ++ [(he, 1)] := by
        unfold dsAdd
        rw [if_neg ?_]
        intro hany
        rw [List.any_eq_true] at hany
        obtain ⟨p, hp, hpk⟩ := hany
        have hin : he ∈ acc.map (fun q => q.1) := by
          simp only [List.mem_map]
          exact ⟨p, hp, by simpa using hpk⟩
        exact hdisj _ (List.mem_cons_self _ _) hin
      rw [hadd]
      rw [ih (acc ++ [(he, 1)]) nodes nn
        (fun p hp => hall p (List.mem_cons_of_mem _ hp))
        ?_ (by simpa using hnd.of_cons)]
      · simp
      · intro p hp hmem
        simp only [List.map_append, List.mem_append, List.map_cons, List.map_nil,
          List.mem_cons, List.not_mem_nil, or_false] at hmem
        rcases hmem with hmem | hmem
        · exact hdisj p (List.mem_cons_of_mem _ hp) hmem
        · simp only [List.map_cons, List.nodup_cons] at hnd
          exact hnd.1 (hmem ▸ List.mem_map_of_mem _ hp)

/-- `C7`: a degree sequence that is already uniform of arity `m` (every key of
length `m`, every multiplicity `1`, keys distinct), passed with `m`
unspecified, is left unchanged: every edge takes the pad branch with zero
padding iterations and weight `m!/m! = 1`, so the full state (degree sequence,
node set and node count) is returned intact. -/
theorem uniformize_uniform_identity (st : NuH) (m : Nat)
    (hne : st.ds ≠ [])
    (hkeys : ((st.ds.map (fun p => p.1)).Nodup))
    (hall : ∀ p ∈ st.ds, p.1.length = m ∧ p.2 = 1) :
    uniformize st none = .ok st := by
  have hmax : maxKeyLen st.ds = m :=
    maxKeyLen_const hne (fun p hp => (hall p hp).1)
  unfold uniformize
  rw [if_neg (by simpa [List.isEmpty_iff] using hne)]
  rw [hmax]
  unfold uniformizeCore
  rw [uniLoop_uniform m (reservedN st (m : Int)) st.ds [] st.nodes st.num_nodes hall
    (by simp) hkeys]
  simp

/-- Witness for `C7` at the already-2-uniform sequence `{(0,1): 1, (1,2): 1}`. -/
theorem uniformize_uniform_identity_witness :
    uniformize ⟨3, [0, 1, 2], [([0, 1], 1), ([1, 2], 1)]⟩ none =
      .ok ⟨3, [0, 1, 2], [([0, 1], 1), ([1, 2], 1)]⟩ :=
  uniformize_uniform_identity _ 2 (by simp) (by simp) (by simp)

/-!
## Matrix constructions (src/xgi/linalg/matrix.py)

A hypergraph is its node list (iteration order of `H.nodes`) and its edge
list (iteration order of `H._edge`; the edge id of an edge is its position).
`H.nodes.memberships(node)` is recovered from the forward map: for a
well-formed hypergraph the reverse lookup lists exactly the edges whose member
set contains the node, in edge-id order.
-/

structure HG where
  nodes : List Int
  edges : List (List Int)
deriving DecidableEq, Repr

/-- The member set of edge id `e`. -/
def HG.members (H : HG) (e : Nat) : List Int := H.edges.getD e []

/-- The well-formedness the spec requires callers to guarantee: distinct
nodes, non-empty edges with distinct members, every member present. -/
def WellFormed (H : HG) : Prop :=
  H.nodes.Nodup ∧ ∀ e ∈ H.edges, e ≠ [] ∧ e.Nodup ∧ ∀ x ∈ e, x ∈ H.nodes

/-- The (possibly `order`-filtered) edge id list:
`[id_ for id_, edge in H._edge.items() if len(edge) == order + 1]`. -/
def edgeIds (H : HG) (order : Option Nat) : List Nat :=
  match order with
  | none => List.range H.edges.length
  | some d => (List.range H.edges.length).filter
      (fun i => (H.members i).length = d + 1)

/-- A SciPy CSR matrix: its shape and its stored entries (coordinate, value).
Stored values may be explicit zeros until `eliminate_zeros` prunes them. -/
structure Csr where
  shape : Nat × Nat
  stored : List ((Nat × Nat) × Rat)
deriving DecidableEq, Repr

/-- Sum of the values stored at coordinate `c` (the mathematical entry of a
coordinate list with possibly duplicated coordinates). -/
def sumAt : List ((Nat × Nat) × Rat) → (Nat × Nat) → Rat
  | [], _ => 0
  | t :: ts, c => (if t.1 = c then t.2 else 0) + sumAt ts c

/-- The mathematical value of entry `c` of a CSR matrix. -/
def Csr.val (A : Csr) (c : Nat × Nat) : Rat := sumAt A.stored c

def listMax (l : List Nat) : Nat := l.foldr max 0

/-- Shape inference of `csr_matrix((data, (rows, cols)))`: one more than the
largest row and column index appearing in the coordinate arrays. -/
def inferShape (ts : List ((Nat × Nat) × Rat)) : Nat × Nat :=
  if ts.isEmpty then (0, 0)
  else (listMax (ts.map (fun t => t.1.1)) + 1, listMax (ts.map (fun t => t.1.2)) + 1)

def cooCoords (ts : List ((Nat × Nat) × Rat)) : List (Nat × Nat) :=
  (ts.map (fun t => t.1)).dedup

/-- `csr_matrix((data, (rows, cols)))`: duplicate coordinates are summed,
the shape is inferred from the largest indices. -/
def fromCoo (ts : List ((Nat × Nat) × Rat)) : Csr :=
  ⟨inferShape ts, (cooCoords ts).map (fun c => (c, sumAt ts c))⟩

/-- The triples one node contributes in the sparse loop of
`incidence_matrix`: one weighted entry per membership surviving the order
filter, or — `include disconnected nodes` — one explicit zero against every
filtered edge when no membership survives.  Rows are node positions
(`node_dict`), columns are positions in the filtered edge id list
(`edge_dict`). -/
def rowTriples (H : HG) (eids : List Nat) (i : Nat) (w : Int → Nat → Rat) :
    List ((Nat × Nat) × Rat) :=
  let node := H.nodes.getD i 0
  let memIdx := (List.range eids.length).filter
    (fun j => node ∈ H.members (eids.getD j 0))
  if memIdx.isEmpty then
    (List.range eids.length).map (fun j => ((i, j), (0 : Rat)))
  else
    memIdx.map (fun j => ((i, j), w node (eids.getD j 0)))

/-- All triples of the sparse loop, node by node. -/
def incTriples (H : HG) (order : Option Nat) (w : Int → Nat → Rat) :
    List ((Nat × Nat) × Rat) :=
  (List.range H.nodes.length).flatMap (fun i => rowTriples H (edgeIds H order) i w)

/-- `incidence_matrix(H, order, sparse=True, weight)`.  `none` models the
`np.array([])` early returns — an empty filtered edge set, or an empty
`node_dict` — which also carry empty index dictionaries when `index=True`. -/
def sparseIncidence (H : HG) (order : Option Nat) (w : Int → Nat → Rat) :
    Option Csr :=
  if (edgeIds H order).isEmpty then none
  else if H.nodes.isEmpty then none
  else some (fromCoo (incTriples H order w))

/-- Assignment of a Python float into an `np.zeros(..., dtype=int)` cell:
NumPy casts to the integer dtype by truncation toward zero. -/
def truncQ (q : Rat) : Int := Int.tdiv q.num (q.den : Int)

/-- The cells of the dense (`sparse=False`) incidence matrix: cell `(i, j)`
keeps its `np.zeros` value unless node `i` is a member of filtered edge `j`,
in which case the loop writes the truncated weight into the integer array
(each cell is written at most once since members and nodes are duplicate-free
in a well-formed hypergraph). -/
def denseEntryFun (H : HG) (order : Option Nat) (w : Int → Nat → Rat)
    (i j : Nat) : Int :=
  let node := H.nodes.getD i 0
  let eid := (edgeIds H order).getD j 0
  if i < H.nodes.length ∧ j < (edgeIds H order).length ∧ node ∈ H.members eid then
    truncQ (w node eid)
  else 0

/-- `incidence_matrix(H, order, sparse=False, weight)`: a zero-initialised
`np.zeros((num_nodes, num_edges), dtype=int)` filled edge by edge. -/
def denseIncidence (H : HG) (order : Option Nat) (w : Int → Nat → Rat) :
    Option (Nat × Nat × (Nat → Nat → Int)) :=
  if (edgeIds H order).isEmpty then none
  else if H.nodes.isEmpty then none
  else some (H.nodes.length, (edgeIds H order).length, denseEntryFun H order w)

def Csr.transpose (A : Csr) : Csr :=
  ⟨(A.shape.2, A.shape.1), A.stored.map (fun t => ((t.1.2, t.1.1), t.2))⟩

/-- Whether coordinate `c` is materialised in the sparse structure. -/
def Csr.hasAt (A : Csr) (c : Nat × Nat) : Bool :=
  A.stored.any (fun t => t.1 = c)

/-- Sparse matrix product: SciPy's CSR matmul materialises an entry wherever
the stored patterns of a row of `A` and a column of `B` overlap, its value the
usual sum of products (which may be an explicit zero). -/
def Csr.dot (A B : Csr) : Csr :=
  ⟨(A.shape.1, B.shape.2),
    (List.range A.shape.1).flatMap (fun i =>
      (List.range B.shape.2).filterMap (fun j =>
        if (List.range A.shape.2).any
            (fun k => A.hasAt (i, k) && B.hasAt (k, j)) then
          some ((i, j), ((List.range A.shape.2).map
            (fun k => A.val (i, k) * B.val (k, j))).sum)
        else none))⟩

/-- `A.setdiag(0)`: stored diagonal entries are overwritten with zero. -/
def Csr.setdiag0 (A : Csr) : Csr :=
  ⟨A.shape, A.stored.map (fun t => if t.1.1 = t.1.2 then (t.1, 0) else t)⟩

/-- `A.eliminate_zeros()`: drop explicitly stored zero values. -/
def Csr.elimZeros (A : Csr) : Csr :=
  ⟨A.shape, A.stored.filter (fun t => t.2 ≠ 0)⟩

/-- A dense two-dimensional array of rationals, by its shape and entries. -/
structure DMat where
  rows : Nat
  cols : Nat
  entry : Nat → Nat → Rat

/-- `adjacency_matrix(H, order, s, weighted)` as the dense value matrix it
denotes.  In the degenerate branch (`I.shape == (0,)`) the code assigns
`A = np.array([])` when `rowdict` is empty and immediately overwrites it with
`A = np.zeros((H.num_nodes, H.num_nodes))` when `coldict` is empty — the two
dictionaries are always empty together — and returns before any thresholding,
so the degenerate result is always the `(num_nodes, num_nodes)` zero matrix.
Otherwise `A = I·Iᵗ` with the diagonal zeroed; unweighted entries are
thresholded to `{0,1}` at `s`, weighted entries below `s` are zeroed. -/
def adjacency_matrix (H : HG) (order : Option Nat) (s : Rat) (weighted : Bool) :
    DMat :=
  match sparseIncidence H order (fun _ _ => 1) with
  | none => ⟨H.nodes.length, H.nodes.length, fun _ _ => 0⟩
  | some I =>
      let M := (I.dot I.transpose).setdiag0
      ⟨I.shape.1, I.shape.1, fun i j =>
        if weighted then (if M.val (i, j) < s then 0 else M.val (i, j))
        else (if s ≤ M.val (i, j) then 1 else 0)⟩

/-- `_degree(H, order)`: row sums of the incidence matrix, or the empty array
when the incidence matrix is empty. -/
def degreeVec (H : HG) (order : Option Nat) : List Rat :=
  match sparseIncidence H order (fun _ _ => 1) with
  | none => []
  | some I => (List.range I.shape.1).map (fun i =>
      ((List.range I.shape.2).map (fun j => I.val (i, j))).sum)

/-- NumPy broadcasting of one axis: sizes must agree or a size-1 axis is
stretched to the other; otherwise the operation raises `ValueError`. -/
def bcDim (a b : Nat) : Option Nat :=
  if a = b then some a else if a = 1 then some b else if b = 1 then some a else none

/-- `laplacian(H, order=1, rescale_per_node=False)`.  The early return for
`A.shape == (0,)` is dead code — `adjacency_matrix` always returns a
two-dimensional array (the degenerate branch returns the
`(num_nodes, num_nodes)` zero matrix) — so it is not modelled.  The
subtraction `order * np.diag(np.ravel(K)) - A` broadcasts the
`(len(K), len(K))` diagonal against the `(n, n)` adjacency: incompatible
dimensions raise `ValueError`, modelled as `Except.error ()`.  (The entry
formula below is only consulted when the broadcast succeeds, which in this
program means `len(K) = n`, or a result with zero rows.) -/
def laplacian (H : HG) (order : Nat) (rescale : Bool) : Except Unit DMat :=
  let A := adjacency_matrix H (some order) 1 true
  let K := degreeVec H (some order)
  match bcDim K.length A.rows with
  | none => .error ()
  | some d =>
      let L : Nat → Nat → Rat := fun i j =>
        (order : Rat) * (if i = j then K.getD i 0 else 0) - A.entry i j
      .ok ⟨d, d, if rescale then (fun i j => L i j / (order : Rat)) else L⟩

/-- `clique_motif_matrix(H)`: the clique expansion `W = I·Iᵗ` with the
diagonal set to zero and explicit zeros pruned; the empty incidence case
returns the empty array. -/
def clique_motif_matrix (H : HG) : Option Csr :=
  match sparseIncidence H none (fun _ _ => 1) with
  | none => none
  | some I => some (((I.dot I.transpose).setdiag0).elimZeros)

/-- `C2`: the claim (and the spec) say `laplacian` returns an empty array and
never raises when the order filter matches no edges, even with nodes present.
On the two-node edgeless hypergraph the adjacency degenerate branch returns
the 2×2 zero matrix while `_degree` returns the empty array, so
`0*np.diag([]) - A` attempts to broadcast `(0,0)` against `(2,2)` and raises
`ValueError`.  (Only with at most one node does the size-1 axis broadcast and
an empty array come back.) -/
theorem laplacian_broadcast_error_on_empty_order :
    edgeIds ⟨[0, 1], []⟩ (some 1) = [] ∧
    laplacian ⟨[0, 1], []⟩ 1 false = .error () := by
  constructor
  · rfl
  · rfl

theorem truncQ_cast_eq_iff (q : Rat) : ((truncQ q : Int) : Rat) = q ↔ q.den = 1 := by
  constructor
  · intro h
    rw [← h]
    exact Rat.den_intCast _
  · intro h
    have hq : ((q.num : Int) : Rat) = q := by
      rw [← Rat.num_div_den q, h]
      simp
    unfold truncQ
    rw [h]
    simpa using hq

/-- `C10`: the dense construction allocates an integer-typed zero matrix, so
every written cell stores the integer truncation of `weight(node, edge, H)`,
and the stored value equals the supplied weight exactly when that weight is an
integer — a fractional weight has its fractional part silently discarded. -/
theorem dense_incidence_truncates_weights (H : HG) (order : Option Nat)
    (w : Int → Nat → Rat) (i j : Nat)
    (hi : i < H.nodes.length) (hj : j < (edgeIds H order).length)
    (hmem : H.nodes.getD i 0 ∈ H.members ((edgeIds H order).getD j 0)) :
    ∃ f, denseIncidence H order w =
        some (H.nodes.length, (edgeIds H order).length, f) ∧
      f i j = truncQ (w (H.nodes.getD i 0) ((edgeIds H order).getD j 0)) ∧
      (((f i j : Int) : Rat) = w (H.nodes.getD i 0) ((edgeIds H order).getD j 0) ↔
        (w (H.nodes.getD i 0) ((edgeIds H order).getD j 0)).den = 1) := by
  have hene : ¬ ((edgeIds H order).isEmpty = true) := by
    rw [List.isEmpty_iff]
    intro h
    rw [h] at hj
    simp at hj
  have hnne : ¬ (H.nodes.isEmpty = true) := by
    rw [List.isEmpty_iff]
    intro h
    rw [h] at hi
    simp at hi
  have hf : denseEntryFun H order w i j =
      truncQ (w (H.nodes.getD i 0) ((edgeIds H order).getD j 0)) := by
    unfold denseEntryFun
    rw [if_pos ⟨hi, hj, hmem⟩]
  refine ⟨denseEntryFun H order w, ?_, hf, ?_⟩
  · unfold denseIncidence
    rw [if_neg hene, if_neg hnne]
  · rw [hf]
    exact truncQ_cast_eq_iff _

/-- Witness for `C10` on one pair edge with the constant weight `3/2`: the
stored dense entry is its truncation `1`, not `3/2`. -/
theorem dense_incidence_truncates_weights_witness :
    ∃ f, denseIncidence ⟨[0, 1], [[0, 1]]⟩ none (fun _ _ => 3/2) =
        some ((⟨[0, 1], [[0, 1]]⟩ : HG).nodes.length,
          (edgeIds ⟨[0, 1], [[0, 1]]⟩ none).length, f) ∧
      f 0 0 = truncQ ((fun (_ : Int) (_ : Nat) => (3 : Rat)/2)
        ((⟨[0, 1], [[0, 1]]⟩ : HG).nodes.getD 0 0)
        ((edgeIds ⟨[0, 1], [[0, 1]]⟩ none).getD 0 0)) ∧
      (((f 0 0 : Int) : Rat) = (fun (_ : Int) (_ : Nat) => (3 : Rat)/2)
          ((⟨[0, 1], [[0, 1]]⟩ : HG).nodes.getD 0 0)
          ((edgeIds ⟨[0, 1], [[0, 1]]⟩ none).getD 0 0) ↔
        ((fun (_ : Int) (_ : Nat) => (3 : Rat)/2)
          ((⟨[0, 1], [[0, 1]]⟩ : HG).nodes.getD 0 0)
          ((edgeIds ⟨[0, 1], [[0, 1]]⟩ none).getD 0 0)).den = 1) :=
  dense_incidence_truncates_weights ⟨[0, 1], [[0, 1]]⟩ none (fun _ _ => 3/2) 0 0
    (by decide) (by decide) (by decide)

theorem sumAt_eq_zero {ts : List ((Nat × Nat) × Rat)} {c : Nat × Nat}
    (h : ∀ t ∈ ts, t.1 ≠ c ∨ t.2 = 0) : sumAt ts c = 0 := by
  induction ts with
  | nil => rfl
  | cons t ts ih =>
      simp only [sumAt]
      rw [ih (fun x hx => h x (List.mem_cons_of_mem _ hx)), add_zero]
      rcases h t (List.mem_cons_self _ _) with h1 | h1
      · rw [if_neg h1]
      · split <;> simp [h1]

theorem sumAt_not_mem {ts : List ((Nat × Nat) × Rat)} {c : Nat × Nat}
    (h : c ∉ ts.map (fun t => t.1)) : sumAt ts c = 0 := by
  refine sumAt_eq_zero (fun t ht => Or.inl (fun hc => h ?_))
  rw [← hc]
  exact List.mem_map_of_mem _ ht

theorem sumAt_append (a b : List ((Nat × Nat) × Rat)) (c : Nat × Nat) :
    sumAt (a ++ b) c = sumAt a c + sumAt b c := by
  induction a with
  | nil => simp [sumAt]
  | cons t ts ih =>
      show (if t.1 = c then t.2 else 0) + sumAt (ts ++ b) c =
        (if t.1 = c then t.2 else 0) + sumAt ts c + sumAt b c
      rw [ih, add_assoc]

theorem sumAt_flatMap (l : List Nat) (f : Nat → List ((Nat × Nat) × Rat))
    (c : Nat × Nat) :
    sumAt (l.flatMap f) c = (l.map (fun x => sumAt (f x) c)).sum := by
  induction l with
  | nil => rfl
  | cons x l ih =>
      rw [List.flatMap_cons, sumAt_append, ih, List.map_cons, List.sum_cons]

theorem sum_map_single {l : List Nat} (hl : l.Nodup) (g : Nat → Rat) (i : Nat)
    (h : ∀ x ∈ l, x ≠ i → g x = 0) :
    (l.map g).sum = if i ∈ l then g i else 0 := by
  induction l with
  | nil => simp
  | cons x l ih =>
      obtain ⟨hx, hl'⟩ := List.nodup_cons.mp hl
      simp only [List.map_cons, List.sum_cons, List.mem_cons]
      by_cases hxi : x = i
      · subst hxi
        have hz : (l.map g).sum = 0 := by
          apply List.sum_eq_zero
          intro z hz
          obtain ⟨y, hy, rfl⟩ := List.mem_map.mp hz
          exact h y (List.mem_cons_of_mem _ hy) (fun hc => hx (hc ▸ hy))
        rw [hz, if_pos (Or.inl rfl), add_zero]
      · rw [h x (List.mem_cons_self _ _) hxi, zero_add,
          ih hl' (fun y hy => h y (List.mem_cons_of_mem _ hy))]
        by_cases hil : i ∈ l
        · rw [if_pos hil, if_pos (Or.inr hil)]
        · rw [if_neg hil, if_neg ?_]
          rintro (rfl | hc)
          · exact hxi rfl
          · exact hil hc

theorem sumAt_map_pairs {l : List Nat} (hl : l.Nodup) (i : Nat) (f : Nat → Rat)
    (c : Nat × Nat) :
    sumAt (l.map (fun j => ((i, j), f j))) c =
      if c.1 = i ∧ c.2 ∈ l then f c.2 else 0 := by
  obtain ⟨c1, c2⟩ := c
  induction l with
  | nil => simp [sumAt]
  | cons j l ih =>
      obtain ⟨hj, hl'⟩ := List.nodup_cons.mp hl
      simp only [List.map_cons, sumAt]
      rw [ih hl']
      by_cases h1 : c1 = i ∧ c2 = j
      · obtain ⟨rfl, rfl⟩ := h1
        rw [if_pos rfl, if_neg (fun hc => hj hc.2), add_zero,
          if_pos ⟨rfl, List.mem_cons_self _ _⟩]
      · rw [if_neg (fun hc : (i, j) = (c1, c2) => h1 ⟨(Prod.mk.injEq _ _ _ _ ▸ hc).1.symm,
          ((Prod.mk.injEq _ _ _ _ ▸ hc).2).symm⟩), zero_add]
        by_cases h2 : c1 = i ∧ c2 ∈ l
        · rw [if_pos h2, if_pos ⟨h2.1, List.mem_cons_of_mem _ h2.2⟩]
        · rw [if_neg h2, if_neg ?_]
          rintro ⟨rfl, hmem⟩
          rcases List.mem_cons.mp hmem with rfl | hmem
          · exact h1 ⟨rfl, rfl⟩
          · exact h2 ⟨rfl, hmem⟩

theorem sumAt_map_keyed {l : List (Nat × Nat)} (hl : l.Nodup)
    (g : Nat × Nat → Rat) (c : Nat × Nat) :
    sumAt (l.map (fun x => (x, g x))) c = if c ∈ l then g c else 0 := by
  induction l with
  | nil => simp [sumAt]
  | cons x l ih =>
      obtain ⟨hx, hl'⟩ := List.nodup_cons.mp hl
      simp only [List.map_cons, sumAt]
      rw [ih hl']
      by_cases h1 : x = c
      · subst h1
        rw [if_pos rfl, if_neg hx, add_zero, if_pos (List.mem_cons_self _ _)]
      · rw [if_neg h1, zero_add]
        by_cases h2 : c ∈ l
        · rw [if_pos h2, if_pos (List.mem_cons_of_mem _ h2)]
        · rw [if_neg h2, if_neg ?_]
          rintro hmem
          rcases List.mem_cons.mp hmem with rfl | hmem
          · exact h1 rfl
          · exact h2 hmem

theorem fromCoo_val (ts : List ((Nat × Nat) × Rat)) (c : Nat × Nat) :
    (fromCoo ts).val c = sumAt ts c := by
  show sumAt (((ts.map (fun t => t.1)).dedup).map (fun c' => (c', sumAt ts c'))) c =
    sumAt ts c
  rw [sumAt_map_keyed (List.nodup_dedup _) (fun c' => sumAt ts c') c]
  split
  · rfl
  · rename_i hnot
    rw [List.mem_dedup] at hnot
    exact (sumAt_not_mem hnot).symm

theorem getD_mem {α : Type} (l : List α) (j : Nat) (d : α) (h : j < l.length) :
    l.getD j d ∈ l := by
  rw [List.getD_eq_getElem?_getD, List.getElem?_eq_getElem h]
  exact List.getElem_mem h

theorem mem_exists_getD {α : Type} {l : List α} {x : α} (h : x ∈ l) (d : α) :
    ∃ i, i < l.length ∧ l.getD i d = x := by
  obtain ⟨⟨i, hi⟩, rfl⟩ := List.mem_iff_get.mp h
  refine ⟨i, hi, ?_⟩
  rw [List.getD_eq_getElem?_getD, List.getElem?_eq_getElem hi]
  rfl

theorem edgeIds_lt {H : HG} {order : Option Nat} :
    ∀ a ∈ edgeIds H order, a < H.edges.length := by
  intro a ha
  match order with
  | none => exact List.mem_range.mp ha
  | some d => exact List.mem_range.mp (List.mem_of_mem_filter ha)

theorem rowTriples_fst {H : HG} {eids : List Nat} {i : Nat} {w : Int → Nat → Rat} :
    ∀ t ∈ rowTriples H eids i w, t.1.1 = i ∧ t.1.2 < eids.length := by
  intro t ht
  simp only [rowTriples] at ht
  split at ht <;> simp only [List.mem_map] at ht
  · obtain ⟨j, hj, rfl⟩ := ht
    exact ⟨rfl, List.mem_range.mp hj⟩
  · obtain ⟨j, hj, rfl⟩ := ht
    exact ⟨rfl, List.mem_range.mp (List.mem_of_mem_filter hj)⟩

theorem rowTriples_ne_nil {H : HG} {eids : List Nat} {i : Nat}
    {w : Int → Nat → Rat} (hne : eids ≠ []) : rowTriples H eids i w ≠ [] := by
  simp only [rowTriples]
  split
  · intro h
    rw [List.map_eq_nil_iff, List.range_eq_nil, List.length_eq_zero] at h
    exact hne h
  · rename_i hmem
    intro h
    rw [List.map_eq_nil_iff] at h
    rw [h] at hmem
    simp at hmem

theorem sumAt_rowTriples (H : HG) (eids : List Nat) (i : Nat)
    (w : Int → Nat → Rat) (i' j : Nat) :
    sumAt (rowTriples H eids i w) (i', j) =
      if i' = i ∧ j < eids.length ∧ H.nodes.getD i 0 ∈ H.members (eids.getD j 0) then
        w (H.nodes.getD i 0) (eids.getD j 0)
      else 0 := by
  simp only [rowTriples]
  split
  · rename_i hempty
    rw [sumAt_map_pairs (List.nodup_range _) i (fun _ => (0 : Rat)) (i', j)]
    rw [List.isEmpty_iff] at hempty
    have hno : ¬ (j < eids.length ∧ H.nodes.getD i 0 ∈ H.members (eids.getD j 0)) := by
      rintro ⟨hj, hmem⟩
      have hjf : j ∈ (List.range eids.length).filter
          (fun j' => H.nodes.getD i 0 ∈ H.members (eids.getD j' 0)) := by
        rw [List.mem_filter]
        exact ⟨List.mem_range.mpr hj, by simpa using hmem⟩
      rw [hempty] at hjf
      simp at hjf
    trans (0 : Rat)
    · split <;> rfl
    · exact (if_neg (fun hc => hno hc.2)).symm
  · rename_i hne
    rw [sumAt_map_pairs ((List.nodup_range _).filter _) i
      (fun j' => w (H.nodes.getD i 0) (eids.getD j' 0)) (i', j)]
    by_cases hc : i' = i ∧ j < eids.length ∧ H.nodes.getD i 0 ∈ H.members (eids.getD j 0)
    · rw [if_pos hc, if_pos ?_]
      refine ⟨hc.1, ?_⟩
      rw [List.mem_filter]
      exact ⟨List.mem_range.mpr hc.2.1, by simpa using hc.2.2⟩
    · rw [if_neg hc, if_neg ?_]
      rintro ⟨h1, h2⟩
      rw [List.mem_filter, List.mem_range] at h2
      exact hc ⟨h1, h2.1, by simpa using h2.2⟩

theorem incTriples_bounds {H : HG} {order : Option Nat} {w : Int → Nat → Rat} :
    ∀ t ∈ incTriples H order w,
      t.1.1 < H.nodes.length ∧ t.1.2 < (edgeIds H order).length := by
  intro t ht
  rw [incTriples, List.mem_flatMap] at ht
  obtain ⟨i, hi, ht⟩ := ht
  obtain ⟨h1, h2⟩ := rowTriples_fst t ht
  exact ⟨h1 ▸ List.mem_range.mp hi, h2⟩

theorem incTriples_row_cover {H : HG} {order : Option Nat} {w : Int → Nat → Rat}
    (hne : edgeIds H order ≠ []) :
    ∀ i, i < H.nodes.length → ∃ t ∈ incTriples H order w, t.1.1 = i := by
  intro i hi
  obtain ⟨t, ht⟩ := List.exists_mem_of_ne_nil _
    (@rowTriples_ne_nil H (edgeIds H order) i w hne)
  refine ⟨t, ?_, (rowTriples_fst t ht).1⟩
  rw [incTriples, List.mem_flatMap]
  exact ⟨i, List.mem_range.mpr hi, ht⟩

theorem incTriples_col_cover {H : HG} {order : Option Nat} {w : Int → Nat → Rat}
    (hwf : WellFormed H) :
    ∀ j, j < (edgeIds H order).length → ∃ t ∈ incTriples H order w, t.1.2 = j := by
  intro j hj
  have heid : (edgeIds H order).getD j 0 ∈ edgeIds H order := getD_mem _ _ _ hj
  have hlt : (edgeIds H order).getD j 0 < H.edges.length := edgeIds_lt _ heid
  have hedge : H.members ((edgeIds H order).getD j 0) ∈ H.edges := getD_mem _ _ _ hlt
  obtain ⟨hene, -, hsub⟩ := hwf.2 _ hedge
  obtain ⟨x, hx⟩ := List.exists_mem_of_ne_nil _ hene
  obtain ⟨i, hi, hgetD⟩ := mem_exists_getD (hsub x hx) 0
  refine ⟨((i, j), w (H.nodes.getD i 0) ((edgeIds H order).getD j 0)), ?_, rfl⟩
  rw [incTriples, List.mem_flatMap]
  refine ⟨i, List.mem_range.mpr hi, ?_⟩
  simp only [rowTriples]
  have hjmem : j ∈ (List.range (edgeIds H order).length).filter
      (fun j' => H.nodes.getD i 0 ∈ H.members ((edgeIds H order).getD j' 0)) := by
    rw [List.mem_filter]
    refine ⟨List.mem_range.mpr hj, ?_⟩
    rw [hgetD]
    simpa using hx
  rw [if_neg ?_]
  · rw [List.mem_map]
    exact ⟨j, hjmem, rfl⟩
  · intro hempty
    rw [List.isEmpty_iff] at hempty
    rw [hempty] at hjmem
    simp at hjmem

theorem le_listMax {l : List Nat} {x : Nat} (h : x ∈ l) : x ≤ listMax l := by
  induction l with
  | nil => cases h
  | cons a l ih =>
      simp only [listMax, List.foldr_cons]
      rcases List.mem_cons.mp h with rfl | h
      · exact Nat.le_max_left _ _
      · exact le_trans (ih h) (Nat.le_max_right _ _)

theorem listMax_lt {l : List Nat} {b : Nat} (hb : 0 < b) (h : ∀ x ∈ l, x < b) :
    listMax l < b := by
  induction l with
  | nil => simpa [listMax]
  | cons a l ih =>
      simp only [listMax, List.foldr_cons]
      rw [Nat.max_lt]
      exact ⟨h a (List.mem_cons_self _ _),
        ih (fun x hx => h x (List.mem_cons_of_mem _ hx))⟩

/-- `C6`: for a well-formed hypergraph and any order filter, the incidence
matrix has shape `(num_nodes, num_filtered_edges)` — the CSR shape inferred
from the emitted coordinates is exactly that, every node row being covered by
memberships or explicit zeros and every filtered edge column by a member node —
and when the filtered edge set is empty both the sparse and the dense
construction return the empty result (with empty index maps when requested)
instead of raising. -/
theorem incidence_matrix_shape_invariant (H : HG) (order : Option Nat)
    (w : Int → Nat → Rat) (hwf : WellFormed H) :
    (edgeIds H order = [] →
      sparseIncidence H order w = none ∧ denseIncidence H order w = none) ∧
    (edgeIds H order ≠ [] →
      (∃ M, sparseIncidence H order w = some M ∧
        M.shape = (H.nodes.length, (edgeIds H order).length)) ∧
      (∃ f, denseIncidence H order w =
        some (H.nodes.length, (edgeIds H order).length, f))) := by
  constructor
  · intro h
    constructor
    · unfold sparseIncidence
      rw [if_pos (by simp [h])]
    · unfold denseIncidence
      rw [if_pos (by simp [h])]
  · intro hne
    have hnodes : H.nodes ≠ [] := by
      obtain ⟨a, ha⟩ := List.exists_mem_of_ne_nil _ hne
      have hedge : H.members a ∈ H.edges := getD_mem _ _ _ (edgeIds_lt _ ha)
      obtain ⟨hene, -, hsub⟩ := hwf.2 _ hedge
      obtain ⟨x, hx⟩ := List.exists_mem_of_ne_nil _ hene
      intro hc
      have := hsub x hx
      rw [hc] at this
      simp at this
    have hn1 : 0 < H.nodes.length := List.length_pos.mpr hnodes
    have he1 : 0 < (edgeIds H order).length := List.length_pos.mpr hne
    have hts : incTriples H order w ≠ [] := by
      obtain ⟨t, ht, -⟩ := @incTriples_row_cover H order w hne 0 hn1
      intro hc
      rw [hc] at ht
      cases ht
    have hrows : listMax ((incTriples H order w).map (fun t => t.1.1)) =
        H.nodes.length - 1 := by
      apply Nat.le_antisymm
      · have := @listMax_lt ((incTriples H order w).map (fun t => t.1.1)) _ hn1 ?_
        · omega
        · intro x hx
          obtain ⟨t, ht, rfl⟩ := List.mem_map.mp hx
          exact (incTriples_bounds t ht).1
      · obtain ⟨t, ht, hfst⟩ := @incTriples_row_cover H order w hne (H.nodes.length - 1)
          (by omega)
        exact le_trans (le_of_eq hfst.symm)
          (le_listMax (List.mem_map_of_mem (fun t => t.1.1) ht))
    have hcols : listMax ((incTriples H order w).map (fun t => t.1.2)) =
        (edgeIds H order).length - 1 := by
      apply Nat.le_antisymm
      · have := @listMax_lt ((incTriples H order w).map (fun t => t.1.2)) _ he1 ?_
        · omega
        · intro x hx
          obtain ⟨t, ht, rfl⟩ := List.mem_map.mp hx
          exact (incTriples_bounds t ht).2
      · obtain ⟨t, ht, hsnd⟩ := @incTriples_col_cover H order w hwf
          ((edgeIds H order).length - 1) (by omega)
        exact le_trans (le_of_eq hsnd.symm)
          (le_listMax (List.mem_map_of_mem (fun t => t.1.2) ht))
    refine ⟨⟨fromCoo (incTriples H order w), ?_, ?_⟩, ⟨denseEntryFun H order w, ?_⟩⟩
    · unfold sparseIncidence
      rw [if_neg (by simpa [List.isEmpty_iff] using hne),
        if_neg (by simpa [List.isEmpty_iff] using hnodes)]
    · show inferShape (incTriples H order w) = _
      unfold inferShape
      rw [if_neg (by simpa [List.isEmpty_iff] using hts), hrows, hcols]
      have h1 : H.nodes.length - 1 + 1 = H.nodes.length := by omega
      have h2 : (edgeIds H order).length - 1 + 1 = (edgeIds H order).length := by omega
      rw [h1, h2]
    · unfold denseIncidence
      rw [if_neg (by simpa [List.isEmpty_iff] using hne),
        if_neg (by simpa [List.isEmpty_iff] using hnodes)]

/-- Witness for `C6` on a hypergraph with one pair edge and one triangle edge,
filtered to order 1: the shape is `(3, 1)`. -/
theorem incidence_matrix_shape_invariant_witness :
    (edgeIds ⟨[0, 1, 2], [[0, 1], [0, 1, 2]]⟩ (some 1) = [] →
      sparseIncidence ⟨[0, 1, 2], [[0, 1], [0, 1, 2]]⟩ (some 1) (fun _ _ => 1) = none ∧
      denseIncidence ⟨[0, 1, 2], [[0, 1], [0, 1, 2]]⟩ (some 1) (fun _ _ => 1) = none) ∧
    (edgeIds ⟨[0, 1, 2], [[0, 1], [0, 1, 2]]⟩ (some 1) ≠ [] →
      (∃ M, sparseIncidence ⟨[0, 1, 2], [[0, 1], [0, 1, 2]]⟩ (some 1) (fun _ _ => 1) =
          some M ∧
        M.shape = ((⟨[0, 1, 2], [[0, 1], [0, 1, 2]]⟩ : HG).nodes.length,
          (edgeIds ⟨[0, 1, 2], [[0, 1], [0, 1, 2]]⟩ (some 1)).length)) ∧
      (∃ f, denseIncidence ⟨[0, 1, 2], [[0, 1], [0, 1, 2]]⟩ (some 1) (fun _ _ => 1) =
        some ((⟨[0, 1, 2], [[0, 1], [0, 1, 2]]⟩ : HG).nodes.length,
          (edgeIds ⟨[0, 1, 2], [[0, 1], [0, 1, 2]]⟩ (some 1)).length, f))) :=
  incidence_matrix_shape_invariant ⟨[0, 1, 2], [[0, 1], [0, 1, 2]]⟩ (some 1)
    (fun _ _ => 1) (by constructor <;> decide)

theorem sumAt_filter_ne_zero (ts : List ((Nat × Nat) × Rat)) (c : Nat × Nat) :
    sumAt (ts.filter (fun t => t.2 ≠ 0)) c = sumAt ts c := by
  induction ts with
  | nil => rfl
  | cons t ts ih =>
      rw [List.filter_cons]
      by_cases h : t.2 = 0
      · rw [if_neg (by simp [h]), ih]
        show sumAt ts c = (if t.1 = c then t.2 else 0) + sumAt ts c
        rw [h]
        split <;> ring
      · rw [if_pos (by simp [h])]
        show (if t.1 = c then t.2 else 0) + sumAt (ts.filter (fun t => t.2 ≠ 0)) c = _
        rw [ih]
        rfl

theorem Csr.elimZeros_val (A : Csr) (c : Nat × Nat) :
    A.elimZeros.val c = A.val c :=
  sumAt_filter_ne_zero A.stored c

theorem sumAt_setdiag (ts : List ((Nat × Nat) × Rat)) (c : Nat × Nat) :
    sumAt (ts.map (fun t => if t.1.1 = t.1.2 then (t.1, 0) else t)) c =
      if c.1 = c.2 then 0 else sumAt ts c := by
  induction ts with
  | nil =>
      show (0 : Rat) = if c.1 = c.2 then 0 else 0
      split <;> rfl
  | cons t ts ih =>
      simp only [List.map_cons, sumAt, ih]
      by_cases hc : c.1 = c.2
      · rw [if_pos hc, if_pos hc, add_zero]
        by_cases hd : t.1.1 = t.1.2
        · rw [if_pos hd]
          show (if t.1 = c then (0 : Rat) else 0) = 0
          split <;> rfl
        · rw [if_neg hd]
          rw [if_neg (fun h : t.1 = c => hd (by rw [h]; exact hc))]
      · rw [if_neg hc, if_neg hc]
        congr 1
        by_cases hd : t.1.1 = t.1.2
        · rw [if_pos hd]
          show (if t.1 = c then (0 : Rat) else 0) = if t.1 = c then t.2 else 0
          rw [if_neg (fun h : t.1 = c => hc (by rw [← h]; exact hd)),
            if_neg (fun h : t.1 = c => hc (by rw [← h]; exact hd))]
        · rw [if_neg hd]

theorem Csr.setdiag0_val (A : Csr) (c : Nat × Nat) :
    A.setdiag0.val c = if c.1 = c.2 then 0 else A.val c :=
  sumAt_setdiag A.stored c

theorem nodes_ne_nil_of_edges {H : HG} {order : Option Nat} (hwf : WellFormed H)
    (hne : edgeIds H order ≠ []) : H.nodes ≠ [] := by
  obtain ⟨a, ha⟩ := List.exists_mem_of_ne_nil _ hne
  have hedge : H.members a ∈ H.edges := getD_mem _ _ _ (edgeIds_lt _ ha)
  obtain ⟨hene, -, hsub⟩ := hwf.2 _ hedge
  obtain ⟨x, hx⟩ := List.exists_mem_of_ne_nil _ hene
  intro hc
  have hmem := hsub x hx
  rw [hc] at hmem
  cases hmem

/-- `C9`: for a well-formed hypergraph with at least one edge, the sparse
matrix returned by `clique_motif_matrix` stores no explicit zero values, its
diagonal is zero, and its set of non-zero entries equals that of the
unthresholded clique expansion `I·Iᵗ` with the diagonal removed (the
`eliminate_zeros` cleanup changes which entries are materialised, never their
values). -/
theorem clique_motif_no_explicit_zeros (H : HG) (hwf : WellFormed H)
    (hedges : H.edges ≠ []) :
    ∃ I W, sparseIncidence H none (fun _ _ => 1) = some I ∧
      clique_motif_matrix H = some W ∧
      (∀ t ∈ W.stored, t.2 ≠ 0) ∧
      (∀ i, W.val (i, i) = 0) ∧
      (∀ i j, W.val (i, j) ≠ 0 ↔ i ≠ j ∧ (I.dot I.transpose).val (i, j) ≠ 0) := by
  have hne : edgeIds H none ≠ [] := by
    show List.range H.edges.length ≠ []
    rw [ne_eq, List.range_eq_nil, List.length_eq_zero]
    exact hedges
  have hnodes : H.nodes ≠ [] := nodes_ne_nil_of_edges hwf hne
  have hI : sparseIncidence H none (fun _ _ => 1) =
      some (fromCoo (incTriples H none (fun _ _ => 1))) := by
    unfold sparseIncidence
    rw [if_neg (by simpa [List.isEmpty_iff] using hne),
      if_neg (by simpa [List.isEmpty_iff] using hnodes)]
  set I := fromCoo (incTriples H none (fun _ _ => 1)) with hIdef
  set W := ((I.dot I.transpose).setdiag0).elimZeros with hW
  refine ⟨I, W, hI, ?_, ?_, ?_, ?_⟩
  · unfold clique_motif_matrix
    rw [hI]
  · intro t ht
    have := (List.mem_filter.mp ht).2
    simpa using this
  · intro i
    rw [hW]
    show ((I.dot I.transpose).setdiag0).elimZeros.val (i, i) = 0
    rw [Csr.elimZeros_val, Csr.setdiag0_val]
    rw [if_pos rfl]
  · intro i j
    rw [hW]
    show ((I.dot I.transpose).setdiag0).elimZeros.val (i, j) ≠ 0 ↔ _
    rw [Csr.elimZeros_val, Csr.setdiag0_val]
    by_cases hij : i = j
    · rw [if_pos hij]
      simp [hij]
    · rw [if_neg hij]
      simp [hij]

/-- Witness for `C9` on the single triangle edge over nodes `{0,1,2}`. -/
theorem clique_motif_no_explicit_zeros_witness :
    ∃ I W, sparseIncidence ⟨[0, 1, 2], [[0, 1, 2]]⟩ none (fun _ _ => 1) = some I ∧
      clique_motif_matrix ⟨[0, 1, 2], [[0, 1, 2]]⟩ = some W ∧
      (∀ t ∈ W.stored, t.2 ≠ 0) ∧
      (∀ i, W.val (i, i) = 0) ∧
      (∀ i j, W.val (i, j) ≠ 0 ↔ i ≠ j ∧ (I.dot I.transpose).val (i, j) ≠ 0) :=
  clique_motif_no_explicit_zeros ⟨[0, 1, 2], [[0, 1, 2]]⟩
    (by constructor <;> decide) (by decide)

theorem Csr.val_eq_zero_of_hasAt_false (A : Csr) (c : Nat × Nat)
    (h : A.hasAt c = false) : A.val c = 0 := by
  refine sumAt_eq_zero (fun t ht => Or.inl ?_)
  intro hc
  rw [Csr.hasAt, List.any_eq_false] at h
  have := h t ht
  simp [hc] at this

theorem sumAt_filterMap_pairs {l : List Nat} (hl : l.Nodup) (i0 : Nat)
    (cond : Nat → Bool) (v : Nat → Rat) (c : Nat × Nat) :
    sumAt (l.filterMap (fun j => if cond j then some ((i0, j), v j) else none)) c =
      if c.1 = i0 ∧ c.2 ∈ l ∧ cond c.2 then v c.2 else 0 := by
  obtain ⟨c1, c2⟩ := c
  induction l with
  | nil => simp [sumAt]
  | cons j l ih =>
      obtain ⟨hj, hl'⟩ := List.nodup_cons.mp hl
      rw [List.filterMap_cons]
      cases hcj : cond j with
      | false =>
          show sumAt (l.filterMap (fun j => if cond j then some ((i0, j), v j) else none))
              (c1, c2) =
            if (c1, c2).1 = i0 ∧ (c1, c2).2 ∈ j :: l ∧ cond (c1, c2).2 then v (c1, c2).2 else 0
          rw [ih hl']
          refine if_congr ?_ rfl rfl
          constructor
          · rintro ⟨h1, h2, h3⟩
            exact ⟨h1, List.mem_cons_of_mem _ h2, h3⟩
          · rintro ⟨h1, h2, h3⟩
            rcases List.mem_cons.mp h2 with rfl | h2
            · rw [hcj] at h3
              cases h3
            · exact ⟨h1, h2, h3⟩
      | true =>
          show (if (i0, j) = (c1, c2) then v j else 0) + _ = _
          rw [ih hl']
          by_cases h1 : c1 = i0 ∧ c2 = j
          · obtain ⟨rfl, rfl⟩ := h1
            rw [if_pos rfl, if_neg (fun hc => hj hc.2.1), add_zero,
              if_pos ⟨rfl, List.mem_cons_self _ _, hcj⟩]
          · rw [if_neg (fun hc : (i0, j) = (c1, c2) =>
              h1 ⟨(Prod.mk.injEq _ _ _ _ ▸ hc).1.symm,
                ((Prod.mk.injEq _ _ _ _ ▸ hc).2).symm⟩), zero_add]
            by_cases h2 : c1 = i0 ∧ c2 ∈ l ∧ cond c2
            · rw [if_pos h2, if_pos ⟨h2.1, List.mem_cons_of_mem _ h2.2.1, h2.2.2⟩]
            · rw [if_neg h2, if_neg ?_]
              rintro ⟨hA, hB, hC⟩
              rcases List.mem_cons.mp hB with rfl | hB
              · exact h1 ⟨hA, rfl⟩
              · exact h2 ⟨hA, hB, hC⟩

theorem Csr.dot_val (A B : Csr) (i j : Nat) (hi : i < A.shape.1)
    (hj : j < B.shape.2) :
    (A.dot B).val (i, j) =
      ((List.range A.shape.2).map (fun k => A.val (i, k) * B.val (k, j))).sum := by
  show sumAt ((List.range A.shape.1).flatMap (fun i' =>
      (List.range B.shape.2).filterMap (fun j' =>
        if (List.range A.shape.2).any (fun k => A.hasAt (i', k) && B.hasAt (k, j')) then
          some ((i', j'), ((List.range A.shape.2).map
            (fun k => A.val (i', k) * B.val (k, j'))).sum)
        else none))) (i, j) = _
  rw [sumAt_flatMap]
  rw [sum_map_single (List.nodup_range _) _ i ?_]
  · rw [if_pos (List.mem_range.mpr hi)]
    rw [sumAt_filterMap_pairs (List.nodup_range _) i _ _ (i, j)]
    by_cases hcond : (List.range A.shape.2).any
        (fun k => A.hasAt (i, k) && B.hasAt (k, j)) = true
    · rw [if_pos ⟨rfl, List.mem_range.mpr hj, hcond⟩]
    · rw [if_neg (fun hc => hcond hc.2.2)]
      symm
      apply List.sum_eq_zero
      intro x hx
      obtain ⟨k, hk, rfl⟩ := List.mem_map.mp hx
      by_cases hA : A.hasAt (i, k) = true
      · have hB : B.hasAt (k, j) = false := by
          cases hB : B.hasAt (k, j) with
          | false => rfl
          | true =>
              exfalso
              exact hcond (List.any_eq_true.mpr ⟨k, hk, by rw [hA, hB]; rfl⟩)
        rw [B.val_eq_zero_of_hasAt_false _ hB, mul_zero]
      · rw [A.val_eq_zero_of_hasAt_false _ (Bool.eq_false_iff.mpr hA), zero_mul]
  · intro x hx hxi
    rw [sumAt_filterMap_pairs (List.nodup_range _) x _ _ (i, j)]
    exact if_neg (fun h => hxi h.1.symm)

theorem sumAt_swap (ts : List ((Nat × Nat) × Rat)) (i j : Nat) :
    sumAt (ts.map (fun t => ((t.1.2, t.1.1), t.2))) (i, j) = sumAt ts (j, i) := by
  induction ts with
  | nil => rfl
  | cons t ts ih =>
      simp only [List.map_cons, sumAt, ih]
      congr 1
      by_cases h : t.1 = (j, i)
      · rw [if_pos (by rw [h]), if_pos h]
      · rw [if_neg ?_, if_neg h]
        intro hc
        apply h
        have h1 : t.1.2 = i := (Prod.mk.injEq _ _ _ _ ▸ hc).1
        have h2 : t.1.1 = j := (Prod.mk.injEq _ _ _ _ ▸ hc).2
        rw [← h1, ← h2]

theorem Csr.transpose_val (A : Csr) (i j : Nat) :
    A.transpose.val (i, j) = A.val (j, i) :=
  sumAt_swap A.stored i j

theorem sparseIncidence_val (H : HG) (order : Option Nat) (w : Int → Nat → Rat)
    (i j : Nat) :
    (fromCoo (incTriples H order w)).val (i, j) =
      if i < H.nodes.length ∧ j < (edgeIds H order).length ∧
          H.nodes.getD i 0 ∈ H.members ((edgeIds H order).getD j 0) then
        w (H.nodes.getD i 0) ((edgeIds H order).getD j 0)
      else 0 := by
  rw [fromCoo_val, incTriples, sumAt_flatMap]
  rw [sum_map_single (List.nodup_range _) _ i ?_]
  · by_cases hi : i < H.nodes.length
    · rw [if_pos (List.mem_range.mpr hi)]
      rw [sumAt_rowTriples]
      by_cases hc : j < (edgeIds H order).length ∧
          H.nodes.getD i 0 ∈ H.members ((edgeIds H order).getD j 0)
      · rw [if_pos ⟨rfl, hc⟩, if_pos ⟨hi, hc⟩]
      · rw [if_neg (fun h => hc h.2), if_neg (fun h => hc ⟨h.2.1, h.2.2⟩)]
    · rw [if_neg (fun h => hi (List.mem_range.mp h)), if_neg (fun h => hi h.1)]
  · intro x hx hxi
    rw [sumAt_rowTriples]
    exact if_neg (fun h => hxi h.1.symm)

theorem sum_indicator (l : List Nat) (P : Nat → Prop) [DecidablePred P] :
    (l.map (fun k => if P k then (1 : Rat) else 0)).sum =
      ((l.filter (fun k => P k)).length : Rat) := by
  induction l with
  | nil => simp
  | cons k l ih =>
      rw [List.map_cons, List.sum_cons, ih, List.filter_cons]
      by_cases hP : P k
      · rw [if_pos hP, if_pos (by simpa using hP), List.length_cons]
        push_cast
        ring
      · rw [if_neg hP, if_neg (by simpa using hP), zero_add]

theorem sum_indicator_mul (l : List Nat) (P Q : Nat → Prop) [DecidablePred P]
    [DecidablePred Q] :
    (l.map (fun k => (if P k then (1 : Rat) else 0) * (if Q k then 1 else 0))).sum =
      ((l.filter (fun k => P k ∧ Q k)).length : Rat) := by
  induction l with
  | nil => simp
  | cons k l ih =>
      rw [List.map_cons, List.sum_cons, ih, List.filter_cons]
      by_cases hP : P k <;> by_cases hQ : Q k
      · rw [if_pos hP, if_pos hQ,
          if_pos (show decide (P k ∧ Q k) = true by simp [hP, hQ]), List.length_cons]
        push_cast
        ring
      · rw [if_pos hP, if_neg hQ,
          if_neg (show ¬ decide (P k ∧ Q k) = true by simp [hQ]), mul_zero, zero_add]
      · rw [if_neg hP,
          if_neg (show ¬ decide (P k ∧ Q k) = true by simp [hP]), zero_mul, zero_add]
      · rw [if_neg hP,
          if_neg (show ¬ decide (P k ∧ Q k) = true by simp [hP]), zero_mul, zero_add]

theorem range_getD {n k : Nat} (hk : k < n) : (List.range n).getD k 0 = k := by
  rw [List.getD_eq_getElem?_getD, List.getElem?_range hk]
  rfl

theorem getD_map_range {α : Type} (n : Nat) (f : Nat → α) (i : Nat) (d : α)
    (h : i < n) : ((List.range n).map f).getD i d = f i := by
  rw [List.getD_eq_getElem?_getD, List.getElem?_map, List.getElem?_range h]
  rfl

theorem getD_nodup_ne {l : List Int} (h : l.Nodup) {i j : Nat}
    (hi : i < l.length) (hj : j < l.length) (hij : i ≠ j) (d : Int) :
    l.getD i d ≠ l.getD j d := by
  intro hc
  rw [List.getD_eq_getElem?_getD, List.getElem?_eq_getElem hi,
    List.getD_eq_getElem?_getD, List.getElem?_eq_getElem hj] at hc
  simp only [Option.getD_some] at hc
  have : (⟨i, hi⟩ : Fin l.length) = ⟨j, hj⟩ := (h.get_inj_iff).mp hc
  exact hij (Fin.mk.injEq _ _ _ _ ▸ this)

theorem edgeIds_order1_all {H : HG} (h2 : ∀ e ∈ H.edges, e.length = 2) :
    edgeIds H (some 1) = List.range H.edges.length := by
  show List.filter _ _ = _
  rw [List.filter_eq_self]
  intro a ha
  have hmem : H.members a ∈ H.edges := getD_mem _ _ _ (List.mem_range.mp ha)
  simp [h2 _ hmem]

theorem filter_range_getD_length {α : Type} (l : List α) (d : α) (p : α → Bool) :
    ((List.range l.length).filter (fun k => p (l.getD k d))).length =
      (l.filter p).length := by
  induction l with
  | nil => rfl
  | cons a t ih =>
      rw [List.length_cons, List.range_succ_eq_map, List.filter_cons,
        List.filter_map]
      have hcomp : List.filter ((fun k => p ((a :: t).getD k d)) ∘ Nat.succ)
          (List.range t.length) =
          List.filter (fun k => p (t.getD k d)) (List.range t.length) := by
        apply List.filter_congr
        intro k hk
        rfl
      rw [hcomp]
      by_cases hpa : p a = true
      · rw [if_pos (show p ((a :: t).getD 0 d) = true from hpa),
          List.length_cons, List.length_map, ih, List.filter_cons, if_pos hpa,
          List.length_cons]
      · rw [if_neg (show ¬ p ((a :: t).getD 0 d) = true from hpa),
          List.length_map, ih, List.filter_cons, if_neg hpa]

theorem pair_members {l : List Int} {x y : Int} (hlen : l.length = 2)
    (hx : x ∈ l) (hy : y ∈ l) (hxy : x ≠ y) :
    ∀ z, z ∈ l ↔ (z = x ∨ z = y) := by
  match l, hlen with
  | [a, b], _ =>
      intro z
      simp only [List.mem_cons, List.not_mem_nil, or_false] at hx hy ⊢
      rcases hx with rfl | rfl <;> rcases hy with rfl | rfl
      · exact absurd rfl hxy
      · tauto
      · tauto
      · exact absurd rfl hxy

theorem length_le_one_of_all_eq {l : List Nat} (hnd : l.Nodup)
    (h : ∀ a ∈ l, ∀ b ∈ l, a = b) : l.length ≤ 1 := by
  match l with
  | [] => simp
  | [a] => simp
  | a :: b :: t =>
      exfalso
      have hab := h a (by simp) b (by simp)
      rw [List.nodup_cons] at hnd
      exact hnd.1 (hab ▸ (by simp : b ∈ b :: t))

theorem fromCoo_incTriples_shape (H : HG) (order : Option Nat)
    (w : Int → Nat → Rat) (hwf : WellFormed H) (hne : edgeIds H order ≠ []) :
    (fromCoo (incTriples H order w)).shape =
      (H.nodes.length, (edgeIds H order).length) := by
  have hnodes : H.nodes ≠ [] := nodes_ne_nil_of_edges hwf hne
  have hn1 : 0 < H.nodes.length := List.length_pos.mpr hnodes
  have he1 : 0 < (edgeIds H order).length := List.length_pos.mpr hne
  have hts : incTriples H order w ≠ [] := by
    obtain ⟨t, ht, -⟩ := @incTriples_row_cover H order w hne 0 hn1
    intro hc
    rw [hc] at ht
    cases ht
  have hrows : listMax ((incTriples H order w).map (fun t => t.1.1)) =
      H.nodes.length - 1 := by
    apply Nat.le_antisymm
    · have := @listMax_lt ((incTriples H order w).map (fun t => t.1.1)) _ hn1 ?_
      · omega
      · intro x hx
        obtain ⟨t, ht, rfl⟩ := List.mem_map.mp hx
        exact (incTriples_bounds t ht).1
    · obtain ⟨t, ht, hfst⟩ := @incTriples_row_cover H order w hne (H.nodes.length - 1)
        (by omega)
      exact le_trans (le_of_eq hfst.symm)
        (le_listMax (List.mem_map_of_mem (fun t => t.1.1) ht))
  have hcols : listMax ((incTriples H order w).map (fun t => t.1.2)) =
      (edgeIds H order).length - 1 := by
    apply Nat.le_antisymm
    · have := @listMax_lt ((incTriples H order w).map (fun t => t.1.2)) _ he1 ?_
      · omega
      · intro x hx
        obtain ⟨t, ht, rfl⟩ := List.mem_map.mp hx
        exact (incTriples_bounds t ht).2
    · obtain ⟨t, ht, hsnd⟩ := @incTriples_col_cover H order w hwf
        ((edgeIds H order).length - 1) (by omega)
      exact le_trans (le_of_eq hsnd.symm)
        (le_listMax (List.mem_map_of_mem (fun t => t.1.2) ht))
  show inferShape (incTriples H order w) = _
  unfold inferShape
  rw [if_neg (by simpa [List.isEmpty_iff] using hts), hrows, hcols]
  have h1 : H.nodes.length - 1 + 1 = H.nodes.length := by omega
  have h2 : (edgeIds H order).length - 1 + 1 = (edgeIds H order).length := by omega
  rw [h1, h2]

/-- Number of edges containing node `x` (the row sum of the incidence
matrix of a pairwise hypergraph). -/
def nodeDegree (H : HG) (x : Int) : Nat :=
  (H.edges.filter (fun e => x ∈ e)).length

/-- Whether two nodes share at least one edge. -/
def adjacentNodes (H : HG) (x y : Int) : Bool :=
  H.edges.any (fun e => x ∈ e ∧ y ∈ e)

/-- The classical graph Laplacian `D − A` the spec compares against
(refinement claim `C8`): `D` the diagonal matrix of node degrees, `A` the
0/1 adjacency matrix of sharing at least one edge. -/
def classicalLaplacian (H : HG) : DMat :=
  ⟨H.nodes.length, H.nodes.length, fun i j =>
    if i = j then (nodeDegree H (H.nodes.getD i 0) : Rat)
    else -(if adjacentNodes H (H.nodes.getD i 0) (H.nodes.getD j 0) then 1 else 0)⟩

/-- `C8` counterexample: on a three-node hypergraph with no edges — vacuously
a simple pairwise hypergraph — `laplacian(H, order=1, rescale_per_node=False)`
raises the broadcast `ValueError` instead of returning the classical Laplacian
`D − A` (here the 3×3 zero matrix). -/
theorem laplacian_pairwise_edgeless_error :
    (∀ e ∈ (⟨[0, 1, 2], []⟩ : HG).edges, e.length = 2) ∧
    laplacian ⟨[0, 1, 2], []⟩ 1 false = .error () := by
  constructor
  · intro e he
    cases he
  · rfl

/-- `C8` amended: for every simple pairwise hypergraph — all edges of size 2,
no two edges with the same member set — with **at least one edge**,
`laplacian(H, order=1, rescale_per_node=False)` equals the classical graph
Laplacian `D − A`: on the diagonal the node degree (the incidence row sum),
off the diagonal minus the 0/1 adjacency indicator. -/
theorem laplacian_pairwise_eq_classical (H : HG) (hwf : WellFormed H)
    (h2 : ∀ e ∈ H.edges, e.length = 2)
    (hdis : ∀ a < H.edges.length, ∀ b < H.edges.length, a ≠ b →
      ¬ ((∀ z ∈ H.edges.getD a [], z ∈ H.edges.getD b []) ∧
         (∀ z ∈ H.edges.getD b [], z ∈ H.edges.getD a [])))
    (hedges : H.edges ≠ []) :
    ∃ L, laplacian H 1 false = Except.ok L ∧
      L.rows = H.nodes.length ∧ L.cols = H.nodes.length ∧
      ∀ i, i < H.nodes.length → ∀ j, j < H.nodes.length →
        L.entry i j = (classicalLaplacian H).entry i j := by
  have heids : edgeIds H (some 1) = List.range H.edges.length := edgeIds_order1_all h2
  have hne : edgeIds H (some 1) ≠ [] := by
    rw [heids, ne_eq, List.range_eq_nil, List.length_eq_zero]
    exact hedges
  have hnodes : H.nodes ≠ [] := nodes_ne_nil_of_edges hwf hne
  have hI : sparseIncidence H (some 1) (fun _ _ => 1) =
      some (fromCoo (incTriples H (some 1) (fun _ _ => 1))) := by
    unfold sparseIncidence
    rw [if_neg (by simpa [List.isEmpty_iff] using hne),
      if_neg (by simpa [List.isEmpty_iff] using hnodes)]
  set I := fromCoo (incTriples H (some 1) (fun _ _ => 1)) with hIdef
  have hshape : I.shape = (H.nodes.length, H.edges.length) := by
    rw [hIdef, fromCoo_incTriples_shape H (some 1) (fun _ _ => 1) hwf hne, heids,
      List.length_range]
  have hs1 : I.shape.1 = H.nodes.length := by rw [hshape]
  have hs2 : I.shape.2 = H.edges.length := by rw [hshape]
  have hval : ∀ i k, i < H.nodes.length → k < H.edges.length →
      I.val (i, k) =
        (if H.nodes.getD i 0 ∈ H.edges.getD k [] then (1 : Rat) else 0) := by
    intro i k hi hk
    rw [hIdef, sparseIncidence_val, heids, List.length_range, range_getD hk]
    show (if i < H.nodes.length ∧ k < H.edges.length ∧
        H.nodes.getD i 0 ∈ H.edges.getD k [] then (1 : Rat) else 0) = _
    by_cases hm : H.nodes.getD i 0 ∈ H.edges.getD k []
    · rw [if_pos ⟨hi, hk, hm⟩, if_pos hm]
    · rw [if_neg (fun hc => hm hc.2.2), if_neg hm]
  have hM : ∀ i j, i < H.nodes.length → j < H.nodes.length → i ≠ j →
      ((I.dot I.transpose).setdiag0).val (i, j) =
        (((List.range H.edges.length).filter (fun k =>
          H.nodes.getD i 0 ∈ H.edges.getD k [] ∧
          H.nodes.getD j 0 ∈ H.edges.getD k [])).length : Rat) := by
    intro i j hi hj hij
    rw [Csr.setdiag0_val, if_neg (show ¬ ((i, j).1 = (i, j).2) from hij)]
    have hjt : j < I.transpose.shape.2 := by
      show j < I.shape.1
      rw [hs1]
      exact hj
    rw [Csr.dot_val I I.transpose i j (by rw [hs1]; exact hi) hjt]
    rw [show I.shape.2 = H.edges.length from hs2]
    have hcong : ∀ k ∈ List.range H.edges.length,
        I.val (i, k) * I.transpose.val (k, j) =
          (if H.nodes.getD i 0 ∈ H.edges.getD k [] then (1 : Rat) else 0) *
          (if H.nodes.getD j 0 ∈ H.edges.getD k [] then (1 : Rat) else 0) := by
      intro k hk
      rw [Csr.transpose_val, hval i k hi (List.mem_range.mp hk),
        hval j k hj (List.mem_range.mp hk)]
    rw [List.map_congr_left hcong, sum_indicator_mul]
  have hMdiag : ∀ i, ((I.dot I.transpose).setdiag0).val (i, i) = 0 := by
    intro i
    rw [Csr.setdiag0_val, if_pos rfl]
  have hdeg : ∀ i, i < H.nodes.length →
      ((List.range I.shape.2).map (fun k => I.val (i, k))).sum =
        (nodeDegree H (H.nodes.getD i 0) : Rat) := by
    intro i hi
    rw [show I.shape.2 = H.edges.length from hs2]
    have hcong : ∀ k ∈ List.range H.edges.length, I.val (i, k) =
        (if H.nodes.getD i 0 ∈ H.edges.getD k [] then (1 : Rat) else 0) :=
      fun k hk => hval i k hi (List.mem_range.mp hk)
    rw [List.map_congr_left hcong, sum_indicator]
    show _ = ((H.edges.filter (fun e => H.nodes.getD i 0 ∈ e)).length : Rat)
    rw [← filter_range_getD_length H.edges [] (fun e => H.nodes.getD i 0 ∈ e)]
  have hcnt : ∀ i j, i < H.nodes.length → j < H.nodes.length → i ≠ j →
      ((List.range H.edges.length).filter (fun k =>
        H.nodes.getD i 0 ∈ H.edges.getD k [] ∧
        H.nodes.getD j 0 ∈ H.edges.getD k [])).length ≤ 1 := by
    intro i j hi hj hij
    apply length_le_one_of_all_eq (List.Nodup.filter _ (List.nodup_range _))
    intro a ha b hb
    rw [List.mem_filter, List.mem_range, decide_eq_true_eq] at ha hb
    by_contra hab
    have hxy : H.nodes.getD i 0 ≠ H.nodes.getD j 0 := getD_nodup_ne hwf.1 hi hj hij 0
    have hea : H.edges.getD a [] ∈ H.edges := getD_mem _ _ _ ha.1
    have heb : H.edges.getD b [] ∈ H.edges := getD_mem _ _ _ hb.1
    have hpa := pair_members (h2 _ hea) ha.2.1 ha.2.2 hxy
    have hpb := pair_members (h2 _ heb) hb.2.1 hb.2.2 hxy
    refine hdis a ha.1 b hb.1 hab ⟨?_, ?_⟩
    · intro z hz
      rw [hpb z]
      rw [hpa z] at hz
      exact hz
    · intro z hz
      rw [hpa z]
      rw [hpb z] at hz
      exact hz
  have hadj : ∀ i j, i < H.nodes.length → j < H.nodes.length →
      (((List.range H.edges.length).filter (fun k =>
        H.nodes.getD i 0 ∈ H.edges.getD k [] ∧
        H.nodes.getD j 0 ∈ H.edges.getD k [])).length = 0 ↔
        adjacentNodes H (H.nodes.getD i 0) (H.nodes.getD j 0) = false) := by
    intro i j hi hj
    constructor
    · intro h0
      cases hA : adjacentNodes H (H.nodes.getD i 0) (H.nodes.getD j 0) with
      | false => rfl
      | true =>
          exfalso
          rw [adjacentNodes, List.any_eq_true] at hA
          obtain ⟨e, he, hxy⟩ := hA
          rw [decide_eq_true_eq] at hxy
          obtain ⟨k, hkE, hgd⟩ := mem_exists_getD he []
          have hk : k ∈ (List.range H.edges.length).filter (fun k =>
              H.nodes.getD i 0 ∈ H.edges.getD k [] ∧
              H.nodes.getD j 0 ∈ H.edges.getD k []) := by
            rw [List.mem_filter]
            refine ⟨List.mem_range.mpr hkE, ?_⟩
            rw [decide_eq_true_eq, hgd]
            exact hxy
          rw [List.length_eq_zero] at h0
          rw [h0] at hk
          cases hk
    · intro hA
      by_contra h0
      obtain ⟨k, hk⟩ := List.length_pos_iff_exists_mem.mp (Nat.pos_of_ne_zero h0)
      rw [List.mem_filter, decide_eq_true_eq] at hk
      have hkE := List.mem_range.mp hk.1
      rw [adjacentNodes, List.any_eq_false] at hA
      exact hA _ (getD_mem _ _ _ hkE) (by rw [decide_eq_true_eq]; exact hk.2)
  have hAm : adjacency_matrix H (some 1) 1 true =
      ⟨I.shape.1, I.shape.1, fun i j =>
        if ((I.dot I.transpose).setdiag0).val (i, j) < 1 then 0
        else ((I.dot I.transpose).setdiag0).val (i, j)⟩ := by
    unfold adjacency_matrix
    rw [hI]
    rfl
  have hK : degreeVec H (some 1) = (List.range I.shape.1).map
      (fun i => ((List.range I.shape.2).map (fun j => I.val (i, j))).sum) := by
    unfold degreeVec
    rw [hI]
  have hlap : laplacian H 1 false = Except.ok ⟨I.shape.1, I.shape.1, fun i j =>
      ((1 : Nat) : Rat) * (if i = j then
          ((List.range I.shape.1).map (fun i' =>
            ((List.range I.shape.2).map (fun j' => I.val (i', j'))).sum)).getD i 0
        else 0) -
      (if ((I.dot I.transpose).setdiag0).val (i, j) < 1 then 0
       else ((I.dot I.transpose).setdiag0).val (i, j))⟩ := by
    unfold laplacian
    rw [hAm, hK]
    simp only [List.length_map, List.length_range]
    rw [show bcDim I.shape.1 I.shape.1 = some I.shape.1 by
      unfold bcDim; rw [if_pos rfl]]
    rfl
  refine ⟨_, hlap, hs1, hs1, ?_⟩
  intro i hi j hj
  by_cases hij : i = j
  · subst hij
    show ((1 : Nat) : Rat) * (if i = i then
        ((List.range I.shape.1).map (fun i' =>
          ((List.range I.shape.2).map (fun j' => I.val (i', j'))).sum)).getD i 0
      else 0) -
      (if ((I.dot I.transpose).setdiag0).val (i, i) < 1 then 0
       else ((I.dot I.transpose).setdiag0).val (i, i)) =
      (classicalLaplacian H).entry i i
    rw [if_pos rfl, hMdiag i, if_pos (by norm_num : (0 : Rat) < 1)]
    rw [getD_map_range I.shape.1 _ i 0 (by rw [hs1]; exact hi)]
    rw [hdeg i hi]
    show _ = (if i = i then (nodeDegree H (H.nodes.getD i 0) : Rat)
      else -(if adjacentNodes H (H.nodes.getD i 0) (H.nodes.getD i 0) then 1 else 0))
    rw [if_pos rfl, Nat.cast_one, one_mul, sub_zero]
  · show ((1 : Nat) : Rat) * (if i = j then
        ((List.range I.shape.1).map (fun i' =>
          ((List.range I.shape.2).map (fun j' => I.val (i', j'))).sum)).getD i 0
      else 0) -
      (if ((I.dot I.transpose).setdiag0).val (i, j) < 1 then 0
       else ((I.dot I.transpose).setdiag0).val (i, j)) =
      (classicalLaplacian H).entry i j
    rw [if_neg hij, hM i j hi hj hij]
    have hclass : (classicalLaplacian H).entry i j =
        -(if adjacentNodes H (H.nodes.getD i 0) (H.nodes.getD j 0) then (1 : Rat)
          else 0) := by
      show (if i = j then (nodeDegree H (H.nodes.getD i 0) : Rat)
        else -(if adjacentNodes H (H.nodes.getD i 0) (H.nodes.getD j 0) then 1
          else 0)) = _
      rw [if_neg hij]
    rw [hclass]
    rcases Nat.le_one_iff_eq_zero_or_eq_one.mp (hcnt i j hi hj hij) with h0 | h1
    · rw [h0, Nat.cast_zero, if_pos (by norm_num : (0 : Rat) < 1)]
      rw [(hadj i j hi hj).mp h0]
      norm_num
    · rw [h1, Nat.cast_one, if_neg (lt_irrefl (1 : Rat))]
      have hAdj : adjacentNodes H (H.nodes.getD i 0) (H.nodes.getD j 0) = true := by
        cases hA' : adjacentNodes H (H.nodes.getD i 0) (H.nodes.getD j 0) with
        | true => rfl
        | false =>
            exfalso
            have := (hadj i j hi hj).mpr hA'
            rw [h1] at this
            cases this
      rw [hAdj]
      norm_num

/-- Witness for the amended `C8` on the path graph `0 — 1 — 2`. -/
theorem laplacian_pairwise_eq_classical_witness :
    ∃ L, laplacian ⟨[0, 1, 2], [[0, 1], [1, 2]]⟩ 1 false = Except.ok L ∧
      L.rows = (⟨[0, 1, 2], [[0, 1], [1, 2]]⟩ : HG).nodes.length ∧
      L.cols = (⟨[0, 1, 2], [[0, 1], [1, 2]]⟩ : HG).nodes.length ∧
      ∀ i, i < (⟨[0, 1, 2], [[0, 1], [1, 2]]⟩ : HG).nodes.length →
        ∀ j, j < (⟨[0, 1, 2], [[0, 1], [1, 2]]⟩ : HG).nodes.length →
        L.entry i j =
          (classicalLaplacian ⟨[0, 1, 2], [[0, 1], [1, 2]]⟩).entry i j :=
  laplacian_pairwise_eq_classical ⟨[0, 1, 2], [[0, 1], [1, 2]]⟩
    (by constructor <;> decide) (by decide)
    (by
      intro a ha b hb hab hsame
      have ha2 : a < 2 := ha
      have hb2 : b < 2 := hb
      interval_cases a <;> interval_cases b <;>
        first
          | exact hab rfl
          | exact absurd hsame (by decide))
    (by decide)
